import Mathlib

/-!
Verification development for the `SU` class of QSymm (`src/SU.ipynb`).

The class represents 3D rotation / reflection / improper-rotation operators on the
(2L+1)-dimensional space of angular momentum eigenfunctions.  We embed the
constructor's generator matrices (`Lz`, `Lp`, `Lm`, `Lx`, `Ly`, `SigmaXY`), the
operator factory `gen_op` with its assertion, and the private `_rotation` and
`_reflection` methods, and prove or refute the specified properties.

Numbers: the Python code computes with float64; we embed the arithmetic over ℝ/ℂ.
NumPy's eigendecomposition route `V · diag(exp(-i·ang·e)) · Vᴴ` for a Hermitian
matrix `M = V·diag(e)·Vᴴ` is embedded as the matrix exponential `exp (-i·ang·M)`,
which it equals by the spectral theorem.  Real division by zero (NumPy: `nan`)
is Lean's total division (`x / 0 = 0`); every place where the code can actually
divide by zero is called out explicitly in the corresponding theorem.
-/

open scoped Matrix ComplexConjugate
open Polynomial NormedSpace

namespace SU

/-- Subdiagonal matrix: value `f k` at position `(k+1, k)`, all else `0`.
Models `np.diag(vals, k=-1)` where `vals[k] = f k`. -/
def subDiag {d : ℕ} {R : Type} [Ring R] (f : ℕ → R) : Matrix (Fin d) (Fin d) R :=
  Matrix.of fun j k => if (j : ℕ) = (k : ℕ) + 1 then f (k : ℕ) else 0

/-- Superdiagonal matrix: value `g j` at position `(j, j+1)`, all else `0`.
Models `np.diag(vals, k=+1)` where `vals[j] = g j`. -/
def supDiag {d : ℕ} {R : Type} [Ring R] (g : ℕ → R) : Matrix (Fin d) (Fin d) R :=
  Matrix.of fun j k => if (k : ℕ) = (j : ℕ) + 1 then g (j : ℕ) else 0

/-- Diagonal matrix with entries indexed by the underlying natural index. -/
def diagN {d : ℕ} {R : Type} [Ring R] (h : ℕ → R) : Matrix (Fin d) (Fin d) R :=
  Matrix.diagonal fun j => h (j : ℕ)

/-- Entry of the raising-operator diagonal from the source,
`np.sqrt(L*(L+1) - m*(m+1))` for `m in range(-L, L)`; the list index `t = m + L`
places the value at position `(t+1, t)`. -/
noncomputable def lpEnt (L t : ℕ) : ℝ :=
  Real.sqrt ((L : ℝ) * ((L : ℝ) + 1) - ((t : ℝ) - (L : ℝ)) * (((t : ℝ) - (L : ℝ)) + 1))

/-- Entry of the lowering-operator diagonal from the source,
`np.sqrt(L*(L+1) - m*(m-1))` for `m in range(-L+1, L+1)`; the list index `t = m + L - 1`
places the value at position `(t, t+1)`. -/
noncomputable def lmEnt (L t : ℕ) : ℝ :=
  Real.sqrt ((L : ℝ) * ((L : ℝ) + 1) -
    (((t : ℝ) + 1) - (L : ℝ)) * ((((t : ℝ) + 1) - (L : ℝ)) - 1))

/-- The raising operator `Lp` (real float array in the source). -/
noncomputable def LpR (L : ℕ) : Matrix (Fin (2 * L + 1)) (Fin (2 * L + 1)) ℝ :=
  subDiag (lpEnt L)

/-- The lowering operator `Lm`. -/
noncomputable def LmR (L : ℕ) : Matrix (Fin (2 * L + 1)) (Fin (2 * L + 1)) ℝ :=
  supDiag (lmEnt L)

/-- The generator `self.Lz = np.diag([m for m in range(-L, L+1)])`: diagonal entry
`m = t - L` at index `t`. -/
noncomputable def LzR (L : ℕ) : Matrix (Fin (2 * L + 1)) (Fin (2 * L + 1)) ℝ :=
  diagN fun t => (t : ℝ) - (L : ℝ)

/-- The generator `self.Lx = 0.5 * (Lp + Lm)`. -/
noncomputable def LxR (L : ℕ) : Matrix (Fin (2 * L + 1)) (Fin (2 * L + 1)) ℝ :=
  (1 / 2 : ℝ) • (LpR L + LmR L)

/-- Complex copy of `Lp`. -/
noncomputable def Lp (L : ℕ) : Matrix (Fin (2 * L + 1)) (Fin (2 * L + 1)) ℂ :=
  (LpR L).map Complex.ofReal

/-- Complex copy of `Lm`. -/
noncomputable def Lm (L : ℕ) : Matrix (Fin (2 * L + 1)) (Fin (2 * L + 1)) ℂ :=
  (LmR L).map Complex.ofReal

/-- The generator `Lx` viewed over ℂ. -/
noncomputable def Lx (L : ℕ) : Matrix (Fin (2 * L + 1)) (Fin (2 * L + 1)) ℂ :=
  (LxR L).map Complex.ofReal

/-- The generator `self.Ly = -0.5j * (Lp - Lm)`. -/
noncomputable def Ly (L : ℕ) : Matrix (Fin (2 * L + 1)) (Fin (2 * L + 1)) ℂ :=
  (-(Complex.I) / 2) • (Lp L - Lm L)

/-- The generator `Lz` viewed over ℂ. -/
noncomputable def Lz (L : ℕ) : Matrix (Fin (2 * L + 1)) (Fin (2 * L + 1)) ℂ :=
  (LzR L).map Complex.ofReal

/-- Reference reflection `self.SigmaXY = np.diag([(-1)**(L + m) for m in range(-L, L+1)])`;
with index `t = m + L` the exponent `L + m` equals `t`. -/
noncomputable def SigmaXY (L : ℕ) : Matrix (Fin (2 * L + 1)) (Fin (2 * L + 1)) ℂ :=
  diagN fun t => (-1 : ℂ) ^ t

/-- The Hermitian combination `M = ax[0]*Lx + ax[1]*Ly + ax[2]*Lz` formed by `_rotation`. -/
noncomputable def axComb (L : ℕ) (ax : Fin 3 → ℝ) :
    Matrix (Fin (2 * L + 1)) (Fin (2 * L + 1)) ℂ :=
  ((ax 0 : ℂ)) • Lx L + ((ax 1 : ℂ)) • Ly L + ((ax 2 : ℂ)) • Lz L

/-- The private `_rotation(ang, ax)`: the source diagonalizes the Hermitian matrix `M`
as `M = V·diag(e)·Vᴴ` (`np.linalg.eigh`) and returns `V·diag(exp(-1j*ang*e))·Vᴴ`,
which by the spectral theorem is the matrix exponential `exp (-i·ang·M)`; we embed it
as that exponential. -/
noncomputable def rotation (L : ℕ) (ang : ℝ) (ax : Fin 3 → ℝ) :
    Matrix (Fin (2 * L + 1)) (Fin (2 * L + 1)) ℂ :=
  exp ℂ ((-(Complex.I) * (ang : ℂ)) • axComb L ax)

/-- The constant `ax_XY = np.array([0., 0., 1.])`. -/
def zHat : Fin 3 → ℝ := ![0, 0, 1]

/-- Cross product `np.cross(u, v)` of two 3-vectors. -/
def cross3 (u v : Fin 3 → ℝ) : Fin 3 → ℝ :=
  ![u 1 * v 2 - u 2 * v 1, u 2 * v 0 - u 0 * v 2, u 0 * v 1 - u 1 * v 0]

/-- Sign canonicalization at the top of `_reflection`: `if ax[2] < 0: ax = -ax`. -/
noncomputable def canon (ax : Fin 3 → ℝ) : Fin 3 → ℝ :=
  if ax 2 < 0 then -ax else ax

/-- The quantity `ang = np.dot(ax_XY, ax) / np.sqrt(np.sum(ax**2))` computed by
`_reflection` and then passed to `_rotation` as the rotation angle. -/
noncomputable def reflAng (ax : Fin 3 → ℝ) : ℝ :=
  (zHat ⬝ᵥ ax) / Real.sqrt (ax ⬝ᵥ ax)

/-- The rotation axis of `_reflection`: `rot_ax = np.cross(ax_XY, ax)` divided by
`np.sqrt(np.dot(rot_ax, rot_ax))`.  When the cross product is the zero vector the
code divides by zero (NumPy produces `nan`; Lean's total division returns `0`). -/
noncomputable def reflAxis (ax : Fin 3 → ℝ) : Fin 3 → ℝ :=
  fun i => cross3 zHat ax i / Real.sqrt (cross3 zHat ax ⬝ᵥ cross3 zHat ax)

/-- The private `_reflection(ax)`:
`np.einsum("ij,jk,kl->il", _rotation(ang, rot_ax), SigmaXY, _rotation(-ang, rot_ax))`
after the canonicalization of `ax`. -/
noncomputable def reflection (L : ℕ) (ax0 : Fin 3 → ℝ) :
    Matrix (Fin (2 * L + 1)) (Fin (2 * L + 1)) ℂ :=
  rotation L (reflAng (canon ax0)) (reflAxis (canon ax0)) * SigmaXY L *
    rotation L (-reflAng (canon ax0)) (reflAxis (canon ax0))

/-- Axis normalization at the top of `gen_op`: `ax = ax / np.sqrt(np.sum(ax**2))`.
For the zero vector this divides zero by zero (NumPy: `nan`; Lean: `0`). -/
noncomputable def normalize3 (ax : Fin 3 → ℝ) : Fin 3 → ℝ :=
  fun i => ax i / Real.sqrt (ax ⬝ᵥ ax)

/-- The assertion of `gen_op`: `assert len(ax) == 3 and ang < 2. * np.pi`, executed
after `ang = np.abs(ang)`.  The length-3 requirement is enforced by the type of the
axis in this embedding, so only the angle condition remains. -/
def genOpCheck (ang : ℝ) : Prop := |ang| < 2 * Real.pi

/-- The dispatch of `gen_op(ang, ax, op_type)`: returns the rotation for `'Cn'`, the
reflection for `'Sigma'`, their product for `'Sn'`, and for any other tag prints a
message and falls through, returning Python `None` (embedded as `none`). -/
noncomputable def genOp (L : ℕ) (ang : ℝ) (ax : Fin 3 → ℝ) (opType : String) :
    Option (Matrix (Fin (2 * L + 1)) (Fin (2 * L + 1)) ℂ) :=
  let axn := normalize3 ax
  let a := |ang|
  if opType = "Cn" then some (rotation L a axn)
  else if opType = "Sigma" then some (reflection L axn)
  else if opType = "Sn" then some (reflection L axn * rotation L a axn)
  else none

/-! ### Band matrix algebra -/

section Band

variable {d : ℕ} {R : Type} [Ring R]

theorem subDiag_apply (f : ℕ → R) (j k : Fin d) :
    subDiag f j k = if (j : ℕ) = (k : ℕ) + 1 then f (k : ℕ) else 0 := rfl

theorem supDiag_apply (g : ℕ → R) (j k : Fin d) :
    supDiag g j k = if (k : ℕ) = (j : ℕ) + 1 then g (j : ℕ) else 0 := rfl

theorem subDiag_mul_supDiag (f g : ℕ → R) :
    (subDiag (d := d) f) * supDiag g =
      Matrix.diagonal (fun j : Fin d =>
        if (j : ℕ) = 0 then 0 else f ((j : ℕ) - 1) * g ((j : ℕ) - 1)) := by
  ext j k
  rw [Matrix.mul_apply]
  rcases j with ⟨jv, hj⟩
  match jv with
  | 0 =>
    rw [Finset.sum_eq_zero]
    · rcases eq_or_ne (⟨0, hj⟩ : Fin d) k with h | h
      · simp [Matrix.diagonal, ← h]
      · simp [Matrix.diagonal_apply_ne _ h]
    · intro t _
      simp [subDiag_apply]
  | Nat.succ tv =>
    have htv : tv < d := Nat.lt_of_succ_lt hj
    rw [Fintype.sum_eq_single (⟨tv, htv⟩ : Fin d)]
    · rcases eq_or_ne (⟨tv + 1, hj⟩ : Fin d) k with h | h
      · subst h
        simp [subDiag_apply, supDiag_apply, Matrix.diagonal]
      · have hk : ¬ ((k : ℕ) = tv + 1) := by
          intro hc
          exact h (Fin.ext hc).symm
        simp [subDiag_apply, supDiag_apply, Matrix.diagonal_apply_ne _ h, hk]
    · intro t ht
      have h1 : (t : ℕ) ≠ (tv : ℕ) := fun hc => ht (Fin.ext hc)
      have h2 : ¬ (tv + 1 = (t : ℕ) + 1) := fun hc => h1 (Nat.succ_injective hc).symm
      simp [subDiag_apply, h2]

theorem supDiag_mul_subDiag (f g : ℕ → R) :
    (supDiag (d := d) g) * subDiag f =
      Matrix.diagonal (fun j : Fin d =>
        if (j : ℕ) + 1 < d then g (j : ℕ) * f (j : ℕ) else 0) := by
  ext j k
  rw [Matrix.mul_apply]
  by_cases hd : (j : ℕ) + 1 < d
  · rw [Fintype.sum_eq_single (⟨(j : ℕ) + 1, hd⟩ : Fin d)]
    · rcases eq_or_ne j k with h | h
      · subst h
        simp [subDiag_apply, supDiag_apply, Matrix.diagonal, hd]
      · have hk : ¬ ((j : ℕ) + 1 = (k : ℕ) + 1) := by
          intro hc
          exact h (Fin.ext (Nat.succ_injective hc))
        simp [subDiag_apply, supDiag_apply, Matrix.diagonal_apply_ne _ h, hk]
    · intro t ht
      have : (t : ℕ) ≠ (j : ℕ) + 1 := fun hc => ht (Fin.ext hc)
      simp [supDiag_apply, this]
  · rw [Finset.sum_eq_zero]
    · rcases eq_or_ne j k with h | h
      · simp [Matrix.diagonal, ← h, hd]
      · simp [Matrix.diagonal_apply_ne _ h]
    · intro t _
      have : ¬ ((t : ℕ) = (j : ℕ) + 1) := by
        intro hc
        exact hd (hc ▸ t.isLt)
      simp [supDiag_apply, this]

theorem diagN_mul_subDiag (h : ℕ → R) (f : ℕ → R) :
    (diagN (d := d) h) * subDiag f = subDiag fun t => h (t + 1) * f t := by
  ext j k
  rw [diagN, Matrix.diagonal_mul, subDiag_apply, subDiag_apply]
  split_ifs with hc
  · rw [hc]
  · simp

theorem subDiag_mul_diagN (h : ℕ → R) (f : ℕ → R) :
    (subDiag (d := d) f) * diagN h = subDiag fun t => f t * h t := by
  ext j k
  rw [diagN, Matrix.mul_diagonal, subDiag_apply, subDiag_apply]
  split_ifs with hc
  · rfl
  · simp

theorem diagN_mul_supDiag (h : ℕ → R) (g : ℕ → R) :
    (diagN (d := d) h) * supDiag g = supDiag fun t => h t * g t := by
  ext j k
  rw [diagN, Matrix.diagonal_mul, supDiag_apply, supDiag_apply]
  split_ifs with hc
  · rfl
  · simp

theorem supDiag_mul_diagN (h : ℕ → R) (g : ℕ → R) :
    (supDiag (d := d) g) * diagN h = supDiag fun t => g t * h (t + 1) := by
  ext j k
  rw [diagN, Matrix.mul_diagonal, supDiag_apply, supDiag_apply]
  split_ifs with hc
  · rw [hc]
  · simp

theorem subDiag_sub (f f' : ℕ → R) :
    subDiag (d := d) f - subDiag f' = subDiag fun t => f t - f' t := by
  ext j k
  simp only [Matrix.sub_apply, subDiag_apply]
  split_ifs <;> simp

theorem supDiag_sub (g g' : ℕ → R) :
    supDiag (d := d) g - supDiag g' = supDiag fun t => g t - g' t := by
  ext j k
  simp only [Matrix.sub_apply, supDiag_apply]
  split_ifs <;> simp

theorem subDiag_transpose (f : ℕ → R) :
    (subDiag (d := d) f)ᵀ = supDiag f := by
  ext j k
  rw [Matrix.transpose_apply, subDiag_apply, supDiag_apply]

theorem supDiag_transpose (g : ℕ → R) :
    (supDiag (d := d) g)ᵀ = subDiag g := by
  ext j k
  rw [Matrix.transpose_apply, supDiag_apply, subDiag_apply]

end Band

theorem subDiag_map {d : ℕ} (f : ℕ → ℝ) :
    (subDiag (d := d) f).map Complex.ofReal = subDiag fun t => (f t : ℂ) := by
  ext j k
  rw [Matrix.map_apply, subDiag_apply, subDiag_apply]
  split_ifs <;> simp

theorem supDiag_map {d : ℕ} (g : ℕ → ℝ) :
    (supDiag (d := d) g).map Complex.ofReal = supDiag fun t => (g t : ℂ) := by
  ext j k
  rw [Matrix.map_apply, supDiag_apply, supDiag_apply]
  split_ifs <;> simp

theorem diagN_map {d : ℕ} (h : ℕ → ℝ) :
    (diagN (d := d) h).map Complex.ofReal = diagN fun t => (h t : ℂ) := by
  ext j k
  rcases eq_or_ne j k with hc | hc
  · subst hc
    simp [diagN, Matrix.diagonal]
  · simp [diagN, Matrix.diagonal_apply_ne _ hc]

/-! ### Entry identities -/

theorem lpEnt_eq_sqrt (L t : ℕ) :
    lpEnt L t = Real.sqrt (((t : ℝ) + 1) * (2 * (L : ℝ) - (t : ℝ))) := by
  unfold lpEnt
  congr 1
  ring

theorem lmEnt_eq_sqrt (L t : ℕ) :
    lmEnt L t = Real.sqrt (((t : ℝ) + 1) * (2 * (L : ℝ) - (t : ℝ))) := by
  unfold lmEnt
  congr 1
  ring

theorem lpEnt_eq_lmEnt (L t : ℕ) : lpEnt L t = lmEnt L t := by
  rw [lpEnt_eq_sqrt, lmEnt_eq_sqrt]

theorem lpEnt_sq (L t : ℕ) (ht : t ≤ 2 * L) :
    lpEnt L t * lpEnt L t = ((t : ℝ) + 1) * (2 * (L : ℝ) - (t : ℝ)) := by
  rw [lpEnt_eq_sqrt]
  apply Real.mul_self_sqrt
  have h2 : (t : ℝ) ≤ 2 * (L : ℝ) := by exact_mod_cast ht
  have h1 : (0 : ℝ) ≤ (t : ℝ) + 1 := by positivity
  nlinarith

/-! ### Structure of the generators over ℂ -/

theorem lp_eq (L : ℕ) : Lp L = subDiag fun t => ((lpEnt L t : ℝ) : ℂ) := by
  unfold Lp LpR
  rw [subDiag_map]

theorem lm_eq (L : ℕ) : Lm L = supDiag fun t => ((lmEnt L t : ℝ) : ℂ) := by
  unfold Lm LmR
  rw [supDiag_map]

theorem lz_eq (L : ℕ) : Lz L = diagN fun t => ((t : ℂ) - (L : ℂ)) := by
  unfold Lz LzR
  rw [diagN_map]
  funext t
  push_cast
  ring

theorem lx_eq (L : ℕ) : Lx L = (1 / 2 : ℂ) • (Lp L + Lm L) := by
  unfold Lx Lp Lm LxR
  ext j k
  simp [Matrix.map_apply, Matrix.smul_apply, Matrix.add_apply]
  ring

/-! ### Hermiticity -/

theorem conjTranspose_map_ofReal {d : ℕ} (A : Matrix (Fin d) (Fin d) ℝ) :
    (A.map Complex.ofReal)ᴴ = Aᵀ.map Complex.ofReal := by
  ext j k
  simp [Matrix.conjTranspose_apply, Matrix.map_apply, Complex.conj_ofReal]

theorem lxR_symm (L : ℕ) : (LxR L)ᵀ = LxR L := by
  have hfun : lpEnt L = lmEnt L := funext (lpEnt_eq_lmEnt L)
  unfold LxR LpR LmR
  rw [Matrix.transpose_smul, Matrix.transpose_add, subDiag_transpose, supDiag_transpose, hfun]
  exact congrArg _ (add_comm _ _)

/-- Hermiticity of `Lx`, checked by the constructor's
`assert np.allclose(self.Lx, np.conj(self.Lx.T))`. -/
theorem isHermitian_Lx (L : ℕ) : (Lx L).IsHermitian := by
  show (Lx L)ᴴ = Lx L
  unfold Lx
  rw [conjTranspose_map_ofReal, lxR_symm]

/-- Hermiticity of `Ly`. -/
theorem isHermitian_Ly (L : ℕ) : (Ly L).IsHermitian := by
  have hfun : lpEnt L = lmEnt L := funext (lpEnt_eq_lmEnt L)
  have hP : (LpR L)ᵀ = LmR L := by
    unfold LpR LmR
    rw [subDiag_transpose, hfun]
  have hM : (LmR L)ᵀ = LpR L := by
    unfold LpR LmR
    rw [supDiag_transpose, hfun]
  show (Ly L)ᴴ = Ly L
  unfold Ly Lp Lm
  rw [Matrix.conjTranspose_smul, Matrix.conjTranspose_sub, conjTranspose_map_ofReal,
    conjTranspose_map_ofReal, hP, hM]
  have hs : (star (-(Complex.I) / 2) : ℂ) = Complex.I / 2 := by
    rw [star_div₀]
    simp [Complex.star_def]
  rw [hs, neg_div, neg_smul, ← smul_neg, neg_sub]

/-- Hermiticity of `Lz`. -/
theorem isHermitian_Lz (L : ℕ) : (Lz L).IsHermitian := by
  show (Lz L)ᴴ = Lz L
  unfold Lz LzR diagN
  rw [conjTranspose_map_ofReal, Matrix.diagonal_transpose]

/-! ### Ladder commutation relations -/

theorem lz_comm_lp (L : ℕ) : Lz L * Lp L - Lp L * Lz L = Lp L := by
  rw [lz_eq, lp_eq, diagN_mul_subDiag, subDiag_mul_diagN, subDiag_sub]
  funext t
  push_cast
  ring

theorem lz_comm_lm (L : ℕ) : Lz L * Lm L - Lm L * Lz L = -Lm L := by
  rw [lz_eq, lm_eq, diagN_mul_supDiag, supDiag_mul_diagN, supDiag_sub]
  have hneg : -(supDiag fun t => ((lmEnt L t : ℝ) : ℂ)) =
      supDiag (d := 2 * L + 1) fun t => -((lmEnt L t : ℝ) : ℂ) := by
    ext j k
    simp only [Matrix.neg_apply, supDiag_apply]
    split_ifs <;> simp
  rw [hneg]
  funext t
  push_cast
  ring

theorem lp_comm_lm (L : ℕ) : Lp L * Lm L - Lm L * Lp L = (2 : ℂ) • Lz L := by
  rw [lp_eq, lm_eq, lz_eq, subDiag_mul_supDiag, supDiag_mul_subDiag]
  ext j k
  rcases eq_or_ne j k with rfl | hne
  · simp only [Matrix.sub_apply, Matrix.smul_apply, Matrix.diagonal_apply_eq, diagN,
      smul_eq_mul]
    rcases hj : (j : ℕ) with _ | t
    · by_cases hL : 0 < L
      · have hlt : (0 : ℕ) + 1 < 2 * L + 1 := by omega
        simp only [hj, hlt, if_true]
        rw [← lpEnt_eq_lmEnt, ← Complex.ofReal_mul, lpEnt_sq L 0 (by omega)]
        push_cast
        ring
      · have hL0 : L = 0 := by omega
        subst hL0
        simp [hj]
    · have hjlt : t + 1 < 2 * L + 1 := hj ▸ j.isLt
      simp only [Nat.succ_ne_zero, if_false, Nat.add_sub_cancel]
      rw [← lpEnt_eq_lmEnt, ← lpEnt_eq_lmEnt, ← Complex.ofReal_mul, ← Complex.ofReal_mul,
        lpEnt_sq L t (by omega)]
      by_cases hint : t + 1 + 1 < 2 * L + 1
      · rw [if_pos hint, lpEnt_sq L (t + 1) (by omega)]
        push_cast
        ring
      · have hteq : t + 1 = 2 * L := by omega
        rw [if_neg hint]
        have hc : ((t : ℕ) : ℂ) + 1 = 2 * (L : ℂ) := by exact_mod_cast hteq
        push_cast
        linear_combination (-((t : ℂ) + 2)) * hc
  · simp [Matrix.diagonal_apply_ne _ hne, diagN, Matrix.diagonal_apply_ne _ hne]

theorem comm_lx_ly (L : ℕ) : Lx L * Ly L - Ly L * Lx L = Complex.I • Lz L := by
  have hd : (Lp L + Lm L) * (Lp L - Lm L) - (Lp L - Lm L) * (Lp L + Lm L)
      = (2 : ℂ) • (Lm L * Lp L - Lp L * Lm L) := by
    rw [two_smul]
    noncomm_ring
  have hflip : Lm L * Lp L - Lp L * Lm L = -((2 : ℂ) • Lz L) := by
    rw [← lp_comm_lm L, neg_sub]
  calc Lx L * Ly L - Ly L * Lx L
      = ((1 / 2 : ℂ) * (-(Complex.I) / 2)) • ((Lp L + Lm L) * (Lp L - Lm L)) -
        ((-(Complex.I) / 2) * (1 / 2 : ℂ)) • ((Lp L - Lm L) * (Lp L + Lm L)) := by
        rw [lx_eq]
        unfold Ly
        rw [smul_mul_assoc, mul_smul_comm, smul_smul, smul_mul_assoc, mul_smul_comm,
          smul_smul]
    _ = (-(Complex.I) / 4) • ((Lp L + Lm L) * (Lp L - Lm L) -
          (Lp L - Lm L) * (Lp L + Lm L)) := by
        rw [show (1 / 2 : ℂ) * (-(Complex.I) / 2) = -(Complex.I) / 4 by ring,
          show (-(Complex.I) / 2) * (1 / 2 : ℂ) = -(Complex.I) / 4 by ring, ← smul_sub]
    _ = (-(Complex.I) / 4) • ((2 : ℂ) • (-((2 : ℂ) • Lz L))) := by rw [hd, hflip]
    _ = Complex.I • Lz L := by
        rw [smul_neg, smul_smul, smul_neg, smul_smul, ← neg_smul]
        congr 1
        ring

theorem comm_ly_lz (L : ℕ) : Ly L * Lz L - Lz L * Ly L = Complex.I • Lx L := by
  have hd : (Lp L - Lm L) * Lz L - Lz L * (Lp L - Lm L)
      = -((Lz L * Lp L - Lp L * Lz L) - (Lz L * Lm L - Lm L * Lz L)) := by
    noncomm_ring
  calc Ly L * Lz L - Lz L * Ly L
      = (-(Complex.I) / 2) • ((Lp L - Lm L) * Lz L - Lz L * (Lp L - Lm L)) := by
        unfold Ly
        rw [smul_mul_assoc, mul_smul_comm, ← smul_sub]
    _ = (-(Complex.I) / 2) • (-(Lp L + Lm L)) := by
        rw [hd, lz_comm_lp, lz_comm_lm, sub_neg_eq_add]
    _ = Complex.I • Lx L := by
        rw [lx_eq, smul_neg, smul_smul, ← neg_smul]
        congr 1
        ring

theorem comm_lz_lx (L : ℕ) : Lz L * Lx L - Lx L * Lz L = Complex.I • Ly L := by
  have hd : Lz L * (Lp L + Lm L) - (Lp L + Lm L) * Lz L
      = (Lz L * Lp L - Lp L * Lz L) + (Lz L * Lm L - Lm L * Lz L) := by
    noncomm_ring
  calc Lz L * Lx L - Lx L * Lz L
      = (1 / 2 : ℂ) • (Lz L * (Lp L + Lm L) - (Lp L + Lm L) * Lz L) := by
        rw [lx_eq]
        rw [smul_mul_assoc, mul_smul_comm, ← smul_sub]
    _ = (1 / 2 : ℂ) • (Lp L + -Lm L) := by
        rw [hd, lz_comm_lp, lz_comm_lm]
    _ = Complex.I • Ly L := by
        unfold Ly
        rw [smul_smul]
        rw [show Lp L + -Lm L = Lp L - Lm L from by rw [sub_eq_add_neg]]
        congr 1
        rw [show Complex.I * (-(Complex.I) / 2) = -(Complex.I ^ 2) / 2 by ring,
          Complex.I_sq]
        norm_num

/-! ### Realness structure of the generator entries -/

theorem lx_entry_real (L : ℕ) (j k : Fin (2 * L + 1)) : (Lx L j k).im = 0 := by
  unfold Lx
  simp [Matrix.map_apply]

theorem lz_entry_real (L : ℕ) (j k : Fin (2 * L + 1)) : (Lz L j k).im = 0 := by
  unfold Lz
  simp [Matrix.map_apply]

theorem ly_entry_imaginary (L : ℕ) (j k : Fin (2 * L + 1)) : (Ly L j k).re = 0 := by
  unfold Ly Lp Lm
  rw [Matrix.smul_apply, Matrix.sub_apply, Matrix.map_apply, Matrix.map_apply,
    ← Complex.ofReal_sub, smul_eq_mul, Complex.mul_re]
  simp [Complex.div_re]

/-! ### Rotation operators -/

theorem isHermitian_axComb (L : ℕ) (ax : Fin 3 → ℝ) : (axComb L ax).IsHermitian := by
  show (axComb L ax)ᴴ = axComb L ax
  unfold axComb
  rw [Matrix.conjTranspose_add, Matrix.conjTranspose_add, Matrix.conjTranspose_smul,
    Matrix.conjTranspose_smul, Matrix.conjTranspose_smul, (isHermitian_Lx L).eq,
    (isHermitian_Ly L).eq, (isHermitian_Lz L).eq, Complex.star_def, Complex.conj_ofReal,
    Complex.conj_ofReal, Complex.conj_ofReal]

theorem rotation_exponent_skew (L : ℕ) (ang : ℝ) (ax : Fin 3 → ℝ) :
    ((-(Complex.I) * (ang : ℂ)) • axComb L ax)ᴴ = -((-(Complex.I) * (ang : ℂ)) • axComb L ax) := by
  rw [Matrix.conjTranspose_smul, (isHermitian_axComb L ax).eq, ← neg_smul]
  congr 1
  rw [Complex.star_def, map_mul, Complex.conj_ofReal, map_neg, Complex.conj_I]
  ring

/-- Unitarity of the `_rotation` output: `R · Rᴴ = 1`. -/
theorem rotation_mul_conjTranspose (L : ℕ) (ang : ℝ) (ax : Fin 3 → ℝ) :
    rotation L ang ax * (rotation L ang ax)ᴴ = 1 := by
  unfold rotation
  rw [← Matrix.exp_conjTranspose, rotation_exponent_skew]
  rw [← Matrix.exp_add_of_commute _ _ _ ((Commute.refl _).neg_right)]
  rw [add_neg_cancel]
  exact exp_zero

theorem rotation_neg_angle (L : ℕ) (ang : ℝ) (ax : Fin 3 → ℝ) :
    rotation L (-ang) ax = exp ℂ (-((-(Complex.I) * (ang : ℂ)) • axComb L ax)) := by
  unfold rotation
  congr 1
  rw [← neg_smul]
  congr 1
  push_cast
  ring

theorem rotation_neg_mul (L : ℕ) (ang : ℝ) (ax : Fin 3 → ℝ) :
    rotation L (-ang) ax * rotation L ang ax = 1 := by
  rw [rotation_neg_angle]
  unfold rotation
  rw [← Matrix.exp_add_of_commute _ _ _ ((Commute.refl _).neg_left)]
  rw [neg_add_cancel]
  exact exp_zero

theorem rotation_mul_neg (L : ℕ) (ang : ℝ) (ax : Fin 3 → ℝ) :
    rotation L ang ax * rotation L (-ang) ax = 1 := by
  rw [rotation_neg_angle]
  unfold rotation
  rw [← Matrix.exp_add_of_commute _ _ _ ((Commute.refl _).neg_right)]
  rw [add_neg_cancel]
  exact exp_zero

theorem rotation_zero (L : ℕ) (ax : Fin 3 → ℝ) : rotation L 0 ax = 1 := by
  unfold rotation
  rw [show ((-(Complex.I) * ((0 : ℝ) : ℂ)) • axComb L ax) = 0 from by
    push_cast
    rw [mul_zero, zero_smul]]
  exact exp_zero

/-! ### Reflection structure -/

theorem sigmaXY_mul_self (L : ℕ) : SigmaXY L * SigmaXY L = 1 := by
  unfold SigmaXY diagN
  rw [Matrix.diagonal_mul_diagonal]
  ext j k
  rcases eq_or_ne j k with rfl | hne
  · simp [Matrix.diagonal_apply_eq, ← mul_pow]
  · simp [Matrix.diagonal_apply_ne _ hne, Matrix.one_apply_ne hne]

theorem normalize3_of_unit (ax : Fin 3 → ℝ) (h : ax ⬝ᵥ ax = 1) : normalize3 ax = ax := by
  funext i
  unfold normalize3
  rw [h, Real.sqrt_one, div_one]

theorem canon_of_nonneg (ax : Fin 3 → ℝ) (h : ¬ ax 2 < 0) : canon ax = ax := by
  unfold canon
  rw [if_neg h]

/-- Conjugating the involution `SigmaXY` by mutually inverse rotations is an involution,
whatever the angle used: the algebraic heart of the reflection-involution property. -/
theorem reflection_mul_self (L : ℕ) (n : Fin 3 → ℝ) :
    reflection L n * reflection L n = 1 := by
  unfold reflection
  rw [show ∀ A B C : Matrix (Fin (2 * L + 1)) (Fin (2 * L + 1)) ℂ,
      A * B * C * (A * B * C) = A * (B * (C * A) * B) * C from
    fun A B C => by noncomm_ring]
  rw [rotation_neg_mul, mul_one, sigmaXY_mul_self, mul_one, rotation_mul_neg]

/-! ### Concrete evaluations used by the reflection claims -/

theorem xHat_unit : (![1, 0, 0] : Fin 3 → ℝ) ⬝ᵥ ![1, 0, 0] = 1 := by
  simp [Matrix.dotProduct, Fin.sum_univ_three]

theorem canon_xHat : canon ![1, 0, 0] = ![1, 0, 0] := by
  apply canon_of_nonneg
  norm_num

theorem reflAng_xHat : reflAng (canon ![1, 0, 0]) = 0 := by
  rw [canon_xHat]
  unfold reflAng zHat
  rw [show (![0, 0, 1] : Fin 3 → ℝ) ⬝ᵥ ![1, 0, 0] = 0 from by
    simp [Matrix.dotProduct, Fin.sum_univ_three]]
  rw [zero_div]

/-- Evaluation of `_reflection` on the unit normal `(1,0,0)`: because the code passes
the cosine `dot(z_hat, n) = 0` directly to `_rotation` as the rotation angle, both
conjugating rotations are the identity and the output is the reference XY-plane
reflection `SigmaXY`, not a reflection through the plane with normal `(1,0,0)`. -/
theorem reflection_xHat (L : ℕ) : reflection L ![1, 0, 0] = SigmaXY L := by
  unfold reflection
  rw [reflAng_xHat, neg_zero, rotation_zero, one_mul, mul_one]

theorem canon_zHat : canon ![0, 0, 1] = ![0, 0, 1] := by
  apply canon_of_nonneg
  norm_num

theorem cross3_zHat_zHat : cross3 zHat ![0, 0, 1] = 0 := by
  funext i
  fin_cases i <;> simp [cross3, zHat]

theorem zHat_unit : (![0, 0, 1] : Fin 3 → ℝ) ⬝ᵥ ![0, 0, 1] = 1 := by
  simp [Matrix.dotProduct, Fin.sum_univ_three]

/-! ### Eigenvector polynomials for the spectrum of Lx

Realizing the representation on binary forms, the operator `Lx` acts on the coefficient
vector of a polynomial `p` (in the basis rescaled by square roots of factorials) as
`p ↦ ((a+b)·X·p - (X²-1)·p')/2`, and the polynomials `(X+1)^a (X-1)^b` are its
eigenfunctions.  We prove the polynomial identity and extract the coefficient
recurrence that makes the rescaled coefficient vectors exact eigenvectors. -/

/-- The polynomial `(X+1)^a * (X-1)^b` over ℤ. -/
noncomputable def eigPol (a b : ℕ) : Polynomial ℤ := (X + 1) ^ a * (X - 1) ^ b

/-- Coefficient `j` of `eigPol a b`. -/
noncomputable def pcf (a b j : ℕ) : ℤ := (eigPol a b).coeff j

theorem eigPol_zero_left (b : ℕ) : eigPol 0 b = (X - 1) ^ b := by
  unfold eigPol
  rw [pow_zero, one_mul]

theorem eigPol_ode_zero (b : ℕ) :
    (b : Polynomial ℤ) * X * eigPol 0 b - (X ^ 2 - 1) * derivative (eigPol 0 b)
      = (0 - (b : Polynomial ℤ)) * eigPol 0 b := by
  rw [eigPol_zero_left]
  induction b with
  | zero => simp
  | succ b ih =>
    rw [pow_succ, derivative_mul, show derivative ((X : Polynomial ℤ) - 1) = 1 from by simp]
    push_cast
    linear_combination ((X : Polynomial ℤ) - 1) * ih

theorem eigPol_ode (a b : ℕ) :
    ((a : Polynomial ℤ) + (b : Polynomial ℤ)) * X * eigPol a b
        - (X ^ 2 - 1) * derivative (eigPol a b)
      = ((a : Polynomial ℤ) - (b : Polynomial ℤ)) * eigPol a b := by
  induction a with
  | zero =>
    have := eigPol_ode_zero b
    push_cast at this ⊢
    linear_combination this
  | succ a ih =>
    have hsplit : eigPol (a + 1) b = (X + 1) * eigPol a b := by
      unfold eigPol
      rw [pow_succ]
      ring
    rw [hsplit, derivative_mul, show derivative ((X : Polynomial ℤ) + 1) = 1 from by simp]
    push_cast
    linear_combination ((X : Polynomial ℤ) + 1) * ih

theorem eigPol_ode_C (a b : ℕ) :
    C ((a : ℤ) + (b : ℤ)) * (X * eigPol a b) - (X ^ 2 - 1) * derivative (eigPol a b)
      = C ((a : ℤ) - (b : ℤ)) * eigPol a b := by
  have h := eigPol_ode a b
  rw [map_add, map_sub, Polynomial.C_eq_natCast, Polynomial.C_eq_natCast, ← mul_assoc]
  exact h

theorem pcf_rec_zero (a b : ℕ) : pcf a b 1 = ((a : ℤ) - (b : ℤ)) * pcf a b 0 := by
  have h := congrArg (fun p => p.coeff 0) (eigPol_ode_C a b)
  simp only [Polynomial.coeff_sub, Polynomial.coeff_C_mul, Polynomial.mul_coeff_zero,
    Polynomial.coeff_X_zero, Polynomial.coeff_derivative, zero_mul,
    Polynomial.coeff_X_pow, Polynomial.coeff_one, Polynomial.coeff_C_zero] at h
  unfold pcf
  push_cast at h ⊢
  linarith [h]

theorem pcf_rec (a b k : ℕ) :
    ((a : ℤ) + (b : ℤ) - (k : ℤ)) * pcf a b k + ((k : ℤ) + 2) * pcf a b (k + 2)
      = ((a : ℤ) - (b : ℤ)) * pcf a b (k + 1) := by
  have h := congrArg (fun p => p.coeff (k + 1)) (eigPol_ode_C a b)
  simp only [Polynomial.coeff_sub, Polynomial.coeff_C_mul, Polynomial.coeff_X_mul] at h
  rw [sub_mul, one_mul, Polynomial.coeff_sub,
    show (X ^ 2 : Polynomial ℤ) * derivative (eigPol a b)
        = derivative (eigPol a b) * X ^ 2 from mul_comm _ _,
    Polynomial.coeff_mul_X_pow'] at h
  unfold pcf
  rcases k with _ | k'
  · simp only [show ¬(2 ≤ 0 + 1) from by omega, if_false] at h
    rw [Polynomial.coeff_derivative] at h
    push_cast at h ⊢
    linarith [h]
  · simp only [show 2 ≤ k' + 1 + 1 from by omega, if_true] at h
    rw [show k' + 1 + 1 - 2 = k' from by omega, Polynomial.coeff_derivative,
      Polynomial.coeff_derivative] at h
    push_cast at h ⊢
    linarith [h]

theorem eigPol_monic (a b : ℕ) : (eigPol a b).Monic := by
  have h1 : ((X : Polynomial ℤ) + 1).Monic := by
    have := Polynomial.monic_X_add_C (1 : ℤ)
    simpa using this
  have h2 : ((X : Polynomial ℤ) - 1).Monic := by
    have := Polynomial.monic_X_sub_C (1 : ℤ)
    simpa using this
  exact (h1.pow a).mul (h2.pow b)

theorem eigPol_natDegree (a b : ℕ) : (eigPol a b).natDegree = a + b := by
  have h1 : ((X : Polynomial ℤ) + 1).Monic := by
    have := Polynomial.monic_X_add_C (1 : ℤ)
    simpa using this
  have h2 : ((X : Polynomial ℤ) - 1).Monic := by
    have := Polynomial.monic_X_sub_C (1 : ℤ)
    simpa using this
  unfold eigPol
  rw [(h1.pow a).natDegree_mul (h2.pow b), Polynomial.natDegree_pow,
    Polynomial.natDegree_pow]
  have e1 : ((X : Polynomial ℤ) + 1).natDegree = 1 := by
    have := Polynomial.natDegree_X_add_C (1 : ℤ)
    simpa using this
  have e2 : ((X : Polynomial ℤ) - 1).natDegree = 1 := by
    have := Polynomial.natDegree_X_sub_C (1 : ℤ)
    simpa using this
  rw [e1, e2, mul_one, mul_one]

theorem pcf_top (a b : ℕ) : pcf a b (a + b) = 1 := by
  unfold pcf
  rw [← eigPol_natDegree a b]
  exact (eigPol_monic a b).coeff_natDegree

theorem pcf_beyond (a b j : ℕ) (h : a + b < j) : pcf a b j = 0 := by
  unfold pcf
  apply Polynomial.coeff_eq_zero_of_natDegree_lt
  rw [eigPol_natDegree]
  exact h

/-! ### Square-root and factorial algebra -/

theorem sqrt_fact_step (p q : ℕ) :
    Real.sqrt (((p : ℝ) + 1) * ((q : ℝ) + 1)) *
        Real.sqrt ((p.factorial : ℝ) * ((q + 1).factorial : ℝ))
      = ((q : ℝ) + 1) * Real.sqrt (((p + 1).factorial : ℝ) * ((q).factorial : ℝ)) := by
  rw [← Real.sqrt_mul (by positivity)]
  have hnat : (p + 1) * (q + 1) * (p.factorial * (q + 1).factorial)
      = (q + 1) ^ 2 * ((p + 1).factorial * q.factorial) := by
    rw [Nat.factorial_succ q, Nat.factorial_succ p]
    ring
  have hcast : (((p : ℝ) + 1) * ((q : ℝ) + 1)) * ((p.factorial : ℝ) * ((q + 1).factorial : ℝ))
      = ((q : ℝ) + 1) ^ 2 * (((p + 1).factorial : ℝ) * ((q).factorial : ℝ)) := by
    exact_mod_cast hnat
  rw [hcast, Real.sqrt_mul (by positivity), Real.sqrt_sq (by positivity)]

theorem sqrt_fact_step' (p q : ℕ) :
    Real.sqrt (((p : ℝ) + 1) * ((q : ℝ) + 1)) *
        Real.sqrt (((p + 1).factorial : ℝ) * ((q).factorial : ℝ))
      = ((p : ℝ) + 1) * Real.sqrt ((p.factorial : ℝ) * ((q + 1).factorial : ℝ)) := by
  rw [← Real.sqrt_mul (by positivity)]
  have hnat : (p + 1) * (q + 1) * ((p + 1).factorial * q.factorial)
      = (p + 1) ^ 2 * (p.factorial * (q + 1).factorial) := by
    rw [Nat.factorial_succ q, Nat.factorial_succ p]
    ring
  have hcast : (((p : ℝ) + 1) * ((q : ℝ) + 1)) * (((p + 1).factorial : ℝ) * ((q).factorial : ℝ))
      = ((p : ℝ) + 1) ^ 2 * ((p.factorial : ℝ) * ((q + 1).factorial : ℝ)) := by
    exact_mod_cast hnat
  rw [hcast, Real.sqrt_mul (by positivity), Real.sqrt_sq (by positivity)]

/-! ### Band matrix action on vectors -/

section BandVec

variable {d : ℕ}

theorem subDiag_mulVec_zero (f : ℕ → ℝ) (v : Fin d → ℝ) (h0 : 0 < d) :
    (subDiag f : Matrix (Fin d) (Fin d) ℝ).mulVec v ⟨0, h0⟩ = 0 := by
  rw [Matrix.mulVec, Matrix.dotProduct]
  apply Finset.sum_eq_zero
  intro t _
  simp [subDiag_apply]

theorem subDiag_mulVec_succ (f : ℕ → ℝ) (v : Fin d → ℝ) (t : ℕ) (h : t + 1 < d) :
    (subDiag f : Matrix (Fin d) (Fin d) ℝ).mulVec v ⟨t + 1, h⟩
      = f t * v ⟨t, Nat.lt_of_succ_lt h⟩ := by
  rw [Matrix.mulVec, Matrix.dotProduct]
  rw [Fintype.sum_eq_single (⟨t, Nat.lt_of_succ_lt h⟩ : Fin d)]
  · simp [subDiag_apply]
  · intro s hs
    have h1 : (s : ℕ) ≠ t := fun hc => hs (Fin.ext hc)
    have h2 : ¬ (t + 1 = (s : ℕ) + 1) := fun hc => h1 (Nat.succ_injective hc).symm
    simp [subDiag_apply, h2]

theorem supDiag_mulVec_mid (g : ℕ → ℝ) (v : Fin d → ℝ) (j : Fin d) (h : (j : ℕ) + 1 < d) :
    (supDiag g : Matrix (Fin d) (Fin d) ℝ).mulVec v j = g (j : ℕ) * v ⟨(j : ℕ) + 1, h⟩ := by
  rw [Matrix.mulVec, Matrix.dotProduct]
  rw [Fintype.sum_eq_single (⟨(j : ℕ) + 1, h⟩ : Fin d)]
  · simp [supDiag_apply]
  · intro s hs
    have h1 : ¬ ((s : ℕ) = (j : ℕ) + 1) := fun hc => hs (Fin.ext hc)
    simp [supDiag_apply, h1]

theorem supDiag_mulVec_last (g : ℕ → ℝ) (v : Fin d → ℝ) (j : Fin d) (h : ¬ ((j : ℕ) + 1 < d)) :
    (supDiag g : Matrix (Fin d) (Fin d) ℝ).mulVec v j = 0 := by
  rw [Matrix.mulVec, Matrix.dotProduct]
  apply Finset.sum_eq_zero
  intro t _
  have h1 : ¬ ((t : ℕ) = (j : ℕ) + 1) := by
    intro hc
    exact h (hc ▸ t.isLt)
  simp [supDiag_apply, h1]

end BandVec

/-! ### The eigenvectors of Lx -/

/-- Square root of `j! * (n-j)!`: the rescaling turning the coefficient vector of an
eigenpolynomial into an eigenvector of the symmetric matrix `Lx`. -/
noncomputable def sFac (n j : ℕ) : ℝ :=
  Real.sqrt ((j.factorial : ℝ) * ((n - j).factorial : ℝ))

theorem sFac_pos (n j : ℕ) : 0 < sFac n j := by
  unfold sFac
  apply Real.sqrt_pos.mpr
  have h1 := Nat.factorial_pos j
  have h2 := Nat.factorial_pos (n - j)
  have h1r : (0 : ℝ) < (j.factorial : ℝ) := by exact_mod_cast h1
  have h2r : (0 : ℝ) < ((n - j).factorial : ℝ) := by exact_mod_cast h2
  exact mul_pos h1r h2r

theorem sFac_stepA (n t : ℕ) (ht : t + 1 ≤ n) :
    Real.sqrt (((t : ℝ) + 1) * ((n : ℝ) - (t : ℝ))) * sFac n t
      = ((n : ℝ) - (t : ℝ)) * sFac n (t + 1) := by
  obtain ⟨q, hq⟩ : ∃ q, n - t = q + 1 := ⟨n - t - 1, by omega⟩
  have hq2 : n - (t + 1) = q := by omega
  have hnr : (n : ℝ) - (t : ℝ) = (q : ℝ) + 1 := by
    have hn : n = t + (q + 1) := by omega
    rw [hn]
    push_cast
    ring
  unfold sFac
  rw [hq, hq2, hnr]
  exact sqrt_fact_step t q

theorem sFac_stepB (n t : ℕ) (ht : t + 1 ≤ n) :
    Real.sqrt (((t : ℝ) + 1) * ((n : ℝ) - (t : ℝ))) * sFac n (t + 1)
      = ((t : ℝ) + 1) * sFac n t := by
  obtain ⟨q, hq⟩ : ∃ q, n - t = q + 1 := ⟨n - t - 1, by omega⟩
  have hq2 : n - (t + 1) = q := by omega
  have hnr : (n : ℝ) - (t : ℝ) = (q : ℝ) + 1 := by
    have hn : n = t + (q + 1) := by omega
    rw [hn]
    push_cast
    ring
  unfold sFac
  rw [hq, hq2, hnr]
  exact sqrt_fact_step' t q

/-- Rescaled coefficient vector of `(X+1)^a (X-1)^(2L-a)`: an exact eigenvector of
`LxR L` with eigenvalue `a - L` (for `a ≤ 2L`). -/
noncomputable def vxR (L a : ℕ) : Fin (2 * L + 1) → ℝ :=
  fun j => (pcf a (2 * L - a) (j : ℕ) : ℝ) * sFac (2 * L) (j : ℕ)

theorem vxR_eigen (L a : ℕ) (ha : a ≤ 2 * L) :
    (LxR L).mulVec (vxR L a) = (((a : ℝ)) - (L : ℝ)) • vxR L a := by
  set b := 2 * L - a with hbdef
  have hab : a + b = 2 * L := by omega
  have habr : (a : ℝ) + (b : ℝ) = 2 * (L : ℝ) := by exact_mod_cast hab
  funext j
  unfold LxR LpR LmR
  rw [Matrix.smul_mulVec_assoc, Matrix.add_mulVec, Pi.smul_apply, Pi.add_apply,
    smul_eq_mul]
  rcases j with ⟨jv, hj⟩
  rcases jv with _ | t
  · rw [subDiag_mulVec_zero (lpEnt L) (vxR L a) hj]
    by_cases hd : ((⟨0, hj⟩ : Fin (2 * L + 1)) : ℕ) + 1 < 2 * L + 1
    · rw [supDiag_mulVec_mid (lmEnt L) (vxR L a) _ hd]
      have h1 : (0 : ℕ) + 1 ≤ 2 * L := by
        simp only [Fin.val_mk] at hd
        omega
      unfold vxR
      simp only [Fin.val_mk, Pi.smul_apply, smul_eq_mul]
      rw [← hbdef]
      rw [lmEnt_eq_sqrt]
      have hB := sFac_stepB (2 * L) 0 h1
      have hrec : ((pcf a b 1 : ℤ) : ℝ) = ((a : ℝ) - (b : ℝ)) * ((pcf a b 0 : ℤ) : ℝ) := by
        exact_mod_cast pcf_rec_zero a b
      simp only [Nat.zero_add] at hB ⊢
      push_cast at hB ⊢
      linear_combination ((pcf a b 1 : ℝ) / 2) * hB + (sFac (2 * L) 0 / 2) * hrec
        + (-((pcf a b 0 : ℝ) * sFac (2 * L) 0) / 2) * habr
    · rw [supDiag_mulVec_last (lmEnt L) (vxR L a) _ hd]
      have hL0 : L = 0 := by
        simp only [Fin.val_mk] at hd
        omega
      have ha0 : a = 0 := by omega
      subst hL0
      subst ha0
      norm_num
  · rw [subDiag_mulVec_succ (lpEnt L) (vxR L a) t hj]
    by_cases hd : ((⟨t + 1, hj⟩ : Fin (2 * L + 1)) : ℕ) + 1 < 2 * L + 1
    · rw [supDiag_mulVec_mid (lmEnt L) (vxR L a) _ hd]
      have htB : (t + 1) + 1 ≤ 2 * L := by
        simp only [Fin.val_mk] at hd
        omega
      have htA : t + 1 ≤ 2 * L := by omega
      unfold vxR
      simp only [Fin.val_mk, Pi.smul_apply, smul_eq_mul]
      rw [← hbdef]
      rw [show t + 1 + 1 = t + 2 from rfl]
      rw [lpEnt_eq_sqrt, lmEnt_eq_sqrt]
      have hA := sFac_stepA (2 * L) t htA
      have hB := sFac_stepB (2 * L) (t + 1) htB
      rw [show (t + 1) + 1 = t + 2 from rfl] at hB
      have hrec : ((a : ℝ) + (b : ℝ) - (t : ℝ)) * (pcf a b t : ℝ)
            + ((t : ℝ) + 2) * (pcf a b (t + 2) : ℝ)
          = ((a : ℝ) - (b : ℝ)) * (pcf a b (t + 1) : ℝ) := by
        exact_mod_cast pcf_rec a b t
      push_cast at hA hB ⊢
      linear_combination ((pcf a b t : ℝ) / 2) * hA + ((pcf a b (t + 2) : ℝ) / 2) * hB
        + (sFac (2 * L) (t + 1) / 2) * hrec
        + (-(((pcf a b t : ℝ) + (pcf a b (t + 1) : ℝ)) * sFac (2 * L) (t + 1)) / 2) * habr
    · rw [supDiag_mulVec_last (lmEnt L) (vxR L a) _ hd]
      have htA : t + 1 ≤ 2 * L := by omega
      have hteq : t + 1 = 2 * L := by
        simp only [Fin.val_mk] at hd
        omega
      unfold vxR
      simp only [Fin.val_mk, Pi.smul_apply, smul_eq_mul]
      rw [← hbdef]
      rw [lpEnt_eq_sqrt]
      have hA := sFac_stepA (2 * L) t htA
      have hrec : ((a : ℝ) + (b : ℝ) - (t : ℝ)) * (pcf a b t : ℝ)
            + ((t : ℝ) + 2) * (pcf a b (t + 2) : ℝ)
          = ((a : ℝ) - (b : ℝ)) * (pcf a b (t + 1) : ℝ) := by
        exact_mod_cast pcf_rec a b t
      have hzero : ((pcf a b (t + 2) : ℤ) : ℝ) = 0 := by
        have := pcf_beyond a b (t + 2) (by omega)
        exact_mod_cast this
      push_cast at hA ⊢
      linear_combination ((pcf a b t : ℝ) / 2) * hA + (sFac (2 * L) (t + 1) / 2) * hrec
        + (-(((pcf a b t : ℝ) + (pcf a b (t + 1) : ℝ)) * sFac (2 * L) (t + 1)) / 2) * habr
        + (-(sFac (2 * L) (t + 1) * ((t : ℝ) + 2)) / 2) * hzero

theorem vxR_ne_zero (L a : ℕ) (ha : a ≤ 2 * L) : vxR L a ≠ 0 := by
  intro h
  have h2 := congrFun h ⟨2 * L, by omega⟩
  unfold vxR at h2
  simp only [Fin.val_mk, Pi.zero_apply] at h2
  have hp : pcf a (2 * L - a) (2 * L) = 1 := by
    have := pcf_top a (2 * L - a)
    rwa [show a + (2 * L - a) = 2 * L from by omega] at this
  rw [hp] at h2
  have hpos := sFac_pos (2 * L) (2 * L)
  push_cast at h2
  linarith

/-! ### Eigenvalues over ℂ -/

/-- An eigenvalue of a complex matrix: some nonzero vector is scaled by `μ`.
This is also what `np.linalg.eigvalsh` reports (up to float error). -/
def IsEigenvalue {d : ℕ} (A : Matrix (Fin d) (Fin d) ℂ) (μ : ℂ) : Prop :=
  ∃ v : Fin d → ℂ, v ≠ 0 ∧ A.mulVec v = μ • v

/-- The expected spectrum `{-L, -L+1, ..., L}` of each generator, as a set of
complex numbers. -/
def intRange (L : ℕ) : Set ℂ :=
  {μ | ∃ m : ℤ, -(L : ℤ) ≤ m ∧ m ≤ (L : ℤ) ∧ μ = (m : ℂ)}

theorem mulVec_map_ofReal {d : ℕ} (A : Matrix (Fin d) (Fin d) ℝ) (v : Fin d → ℝ) :
    (A.map Complex.ofReal).mulVec (fun j => ((v j : ℝ) : ℂ))
      = fun j => ((A.mulVec v j : ℝ) : ℂ) := by
  funext j
  rw [Matrix.mulVec, Matrix.mulVec, Matrix.dotProduct, Matrix.dotProduct,
    Complex.ofReal_sum]
  apply Finset.sum_congr rfl
  intro k _
  rw [Matrix.map_apply, Complex.ofReal_mul]

theorem isEigenvalue_lx (L : ℕ) (i : Fin (2 * L + 1)) :
    IsEigenvalue (Lx L) (((i : ℕ) : ℂ) - (L : ℂ)) := by
  have ha : (i : ℕ) ≤ 2 * L := by omega
  refine ⟨fun j => ((vxR L (i : ℕ) j : ℝ) : ℂ), ?_, ?_⟩
  · intro h
    apply vxR_ne_zero L (i : ℕ) ha
    funext j
    have hz := congrFun h j
    simpa using hz
  · unfold Lx
    rw [mulVec_map_ofReal, vxR_eigen L (i : ℕ) ha]
    funext j
    simp only [Pi.smul_apply, smul_eq_mul]
    push_cast
    ring

/-! ### Eigenvalues of Ly by diagonal phase conjugation -/

/-- Diagonal phase matrix with entries `(-i)^t`. -/
noncomputable def phaseK (L : ℕ) : Matrix (Fin (2 * L + 1)) (Fin (2 * L + 1)) ℂ :=
  diagN fun t => (-(Complex.I)) ^ t

/-- Diagonal phase matrix with entries `i^t`, the inverse of `phaseK`. -/
noncomputable def phaseK' (L : ℕ) : Matrix (Fin (2 * L + 1)) (Fin (2 * L + 1)) ℂ :=
  diagN fun t => (Complex.I) ^ t

theorem negI_pow_mul_I_pow (t : ℕ) : (-(Complex.I)) ^ t * (Complex.I) ^ t = 1 := by
  rw [← mul_pow]
  simp

theorem phaseK_mul_phaseK' (L : ℕ) : phaseK L * phaseK' L = 1 := by
  unfold phaseK phaseK' diagN
  rw [Matrix.diagonal_mul_diagonal]
  ext j k
  rcases eq_or_ne j k with rfl | hne
  · simp [Matrix.diagonal_apply_eq, negI_pow_mul_I_pow]
  · simp [Matrix.diagonal_apply_ne _ hne, Matrix.one_apply_ne hne]

theorem phaseK'_mul_phaseK (L : ℕ) : phaseK' L * phaseK L = 1 := by
  unfold phaseK phaseK' diagN
  rw [Matrix.diagonal_mul_diagonal]
  ext j k
  rcases eq_or_ne j k with rfl | hne
  · rw [Matrix.diagonal_apply_eq, Matrix.one_apply_eq, mul_comm]
    exact negI_pow_mul_I_pow (j : ℕ)
  · simp [Matrix.diagonal_apply_ne _ hne, Matrix.one_apply_ne hne]

/-- `Ly` is the conjugate of `Lx` by the diagonal unitary phase matrix of `(-i)^t`. -/
theorem ly_conj (L : ℕ) : Ly L = phaseK L * Lx L * phaseK' L := by
  have hNI := negI_pow_mul_I_pow
  unfold Ly
  rw [lp_eq, lm_eq, lx_eq, lp_eq, lm_eq]
  unfold phaseK phaseK' diagN
  ext j k
  rw [Matrix.mul_diagonal, Matrix.diagonal_mul]
  simp only [Matrix.smul_apply, Matrix.sub_apply, Matrix.add_apply, subDiag_apply,
    supDiag_apply, smul_eq_mul]
  by_cases h1 : (j : ℕ) = (k : ℕ) + 1
  · have h2 : ¬ ((k : ℕ) = (j : ℕ) + 1) := by omega
    rw [if_pos h1, if_neg h2, h1]
    linear_combination (Complex.I * ((lpEnt L (k : ℕ) : ℝ) : ℂ) / 2) * hNI (k : ℕ)
  · by_cases h2 : (k : ℕ) = (j : ℕ) + 1
    · rw [if_neg h1, if_pos h2, h2]
      linear_combination (-(Complex.I) * ((lmEnt L (j : ℕ) : ℝ) : ℂ) / 2) * hNI (j : ℕ)
    · rw [if_neg h1, if_neg h2]
      ring

theorem isEigenvalue_conj {d : ℕ} (K K' A : Matrix (Fin d) (Fin d) ℂ)
    (hK'K : K' * K = 1) {μ : ℂ} (h : IsEigenvalue A μ) :
    IsEigenvalue (K * A * K') μ := by
  obtain ⟨v, hv0, hv⟩ := h
  refine ⟨K.mulVec v, ?_, ?_⟩
  · intro hz
    apply hv0
    have hrt : K'.mulVec (K.mulVec v) = v := by
      rw [Matrix.mulVec_mulVec, hK'K, Matrix.one_mulVec]
    rw [← hrt, hz, Matrix.mulVec_zero]
  · rw [Matrix.mulVec_mulVec, Matrix.mul_assoc, Matrix.mul_assoc, hK'K, Matrix.mul_one,
      ← Matrix.mulVec_mulVec, hv, Matrix.mulVec_smul]

theorem isEigenvalue_ly_iff (L : ℕ) (μ : ℂ) :
    IsEigenvalue (Ly L) μ ↔ IsEigenvalue (Lx L) μ := by
  constructor
  · intro h
    have h2 := isEigenvalue_conj (phaseK' L) (phaseK L) (Ly L) (phaseK_mul_phaseK' L) h
    have hout : phaseK' L * Ly L * phaseK L = Lx L := by
      rw [ly_conj]
      rw [show phaseK' L * (phaseK L * Lx L * phaseK' L) * phaseK L
          = (phaseK' L * phaseK L) * Lx L * (phaseK' L * phaseK L) from by
        noncomm_ring]
      rw [phaseK'_mul_phaseK, one_mul, mul_one]
    rwa [hout] at h2
  · intro h
    have h2 := isEigenvalue_conj (phaseK L) (phaseK' L) (Lx L) (phaseK'_mul_phaseK L) h
    rwa [← ly_conj] at h2

theorem isEigenvalue_ly (L : ℕ) (i : Fin (2 * L + 1)) :
    IsEigenvalue (Ly L) (((i : ℕ) : ℂ) - (L : ℂ)) :=
  (isEigenvalue_ly_iff L _).mpr (isEigenvalue_lx L i)

theorem isEigenvalue_lz (L : ℕ) (i : Fin (2 * L + 1)) :
    IsEigenvalue (Lz L) (((i : ℕ) : ℂ) - (L : ℂ)) := by
  refine ⟨Pi.single i 1, ?_, ?_⟩
  · intro h
    have hz := congrFun h i
    rw [Pi.single_eq_same, Pi.zero_apply] at hz
    exact one_ne_zero hz
  · rw [lz_eq]
    unfold diagN
    funext j
    rw [Matrix.mulVec_diagonal]
    rcases eq_or_ne j i with rfl | hne
    · rw [Pi.single_eq_same, Pi.smul_apply, Pi.single_eq_same]
      simp
    · rw [Pi.single_eq_of_ne hne, Pi.smul_apply, Pi.single_eq_of_ne hne]
      simp

/-! ### The upper bound: a matrix of size d has no more than d distinct eigenvalues -/

theorem eigenvalue_mem_of_family {d : ℕ} (A : Matrix (Fin d) (Fin d) ℂ)
    (lam : Fin d → ℂ) (hinj : Function.Injective lam)
    (hv : ∀ i, IsEigenvalue A (lam i)) {μ : ℂ} (hμ : IsEigenvalue A μ) :
    ∃ i, μ = lam i := by
  by_contra hno
  push_neg at hno
  obtain ⟨w, hw0, hw⟩ := hμ
  choose v hv0 hveq using hv
  have hli : LinearIndependent ℂ (fun o : Option (Fin d) => o.elim w v) := by
    apply Module.End.eigenvectors_linearIndependent' (Matrix.mulVecLin A)
      (fun o : Option (Fin d) => o.elim μ lam)
    · intro o o' hoo
      match o, o' with
      | none, none => rfl
      | none, some i =>
        exact absurd hoo (hno i)
      | some i, none =>
        exact absurd hoo.symm (hno i)
      | some i, some i' =>
        exact congrArg some (hinj hoo)
    · intro o
      match o with
      | none =>
        refine ⟨?_, hw0⟩
        rw [Module.End.mem_eigenspace_iff, Matrix.mulVecLin_apply]
        exact hw
      | some i =>
        refine ⟨?_, hv0 i⟩
        rw [Module.End.mem_eigenspace_iff, Matrix.mulVecLin_apply]
        exact hveq i
  have hcard := hli.fintype_card_le_finrank
  rw [Module.finrank_fintype_fun_eq_card] at hcard
  simp only [Fintype.card_option, Fintype.card_fin] at hcard
  omega

/-- Any matrix admitting the full family of eigenvalues `{-L,...,L}` (one for each of
its `2L+1` rows) has exactly that eigenvalue set. -/
theorem eigSet_eq_intRange {L : ℕ} (A : Matrix (Fin (2 * L + 1)) (Fin (2 * L + 1)) ℂ)
    (hv : ∀ i : Fin (2 * L + 1), IsEigenvalue A (((i : ℕ) : ℂ) - (L : ℂ))) :
    {μ : ℂ | IsEigenvalue A μ} = intRange L := by
  have hinj : Function.Injective fun i : Fin (2 * L + 1) => ((i : ℕ) : ℂ) - (L : ℂ) := by
    intro i i' hii
    have h2 : ((i : ℕ) : ℂ) = ((i' : ℕ) : ℂ) := by
      have := sub_left_injective hii
      exact this
    have h3 : (i : ℕ) = (i' : ℕ) := by exact_mod_cast h2
    exact Fin.ext h3
  ext μ
  constructor
  · intro hμ
    obtain ⟨i, hi⟩ := eigenvalue_mem_of_family A _ hinj hv hμ
    refine ⟨(i : ℕ) - (L : ℤ), by omega, by omega, ?_⟩
    rw [hi]
    push_cast
    ring
  · rintro ⟨m, hm1, hm2, rfl⟩
    have hlt : (m + (L : ℤ)).toNat < 2 * L + 1 := by omega
    have h := hv ⟨(m + (L : ℤ)).toNat, hlt⟩
    have hval : (((m + (L : ℤ)).toNat : ℕ) : ℂ) = (m : ℂ) + (L : ℂ) := by
      have h1 : (((m + (L : ℤ)).toNat : ℕ) : ℤ) = m + (L : ℤ) := Int.toNat_of_nonneg (by omega)
      exact_mod_cast congrArg (Int.cast : ℤ → ℂ) h1
    simp only [Fin.val_mk] at h
    rw [hval] at h
    rw [show (m : ℂ) + (L : ℂ) - (L : ℂ) = (m : ℂ) from by ring] at h
    exact h

/-- The constructor's sanity check `assert L >= 0`.  The parameter is modelled as a
rational number because Python accepts any real-valued `L` here. -/
def suCheck (Lq : ℚ) : Bool := decide (0 ≤ Lq)

/-- Python's `int(L)` truncation toward zero, as performed by `self.L = int(L)`.
For the values that reach it (`L >= 0` has been asserted) truncation agrees with
the floor. -/
def pyInt (q : ℚ) : ℤ := q.num / (q.den : ℤ)

/-! ### Claim theorems -/

/-- C1: for every integer L ≥ 0 the construction produces three (2L+1)×(2L+1)
generators Lx, Ly, Lz (the dimension is enforced by their type), each Hermitian, and
the eigenvalue set of each — computed independently — is exactly `{-L, ..., L}`; every
such eigenvalue has zero imaginary part. -/
theorem c1_generator_spectra (L : ℕ) :
    (Lx L).IsHermitian ∧ (Ly L).IsHermitian ∧ (Lz L).IsHermitian ∧
    {μ : ℂ | IsEigenvalue (Lx L) μ} = intRange L ∧
    {μ : ℂ | IsEigenvalue (Ly L) μ} = intRange L ∧
    {μ : ℂ | IsEigenvalue (Lz L) μ} = intRange L ∧
    ∀ μ ∈ intRange L, μ.im = 0 := by
  refine ⟨isHermitian_Lx L, isHermitian_Ly L, isHermitian_Lz L, ?_, ?_, ?_, ?_⟩
  · exact eigSet_eq_intRange (Lx L) (isEigenvalue_lx L)
  · exact eigSet_eq_intRange (Ly L) (isEigenvalue_ly L)
  · exact eigSet_eq_intRange (Lz L) (isEigenvalue_lz L)
  · rintro μ ⟨m, _, _, rfl⟩
    simp

/-- C2 (evaluating the code at a failing input): asking for the reflection through the
plane with unit normal (1,0,0) returns the reference XY-plane reflection `SigmaXY`
itself, for every L and every angle argument.  The code sets
`ang = dot(z_hat, n) = cos(π/2) = 0` and passes this cosine to `_rotation` as the
rotation angle instead of the angle `φ = π/2` whose cosine it is, so both conjugating
rotations are the identity and the reference plane is never rotated onto the target
plane. -/
theorem c2_reflection_uses_cosine_as_angle (L : ℕ) (ang : ℝ) :
    genOp L ang ![1, 0, 0] "Sigma" = some (SigmaXY L) := by
  have hn : normalize3 ![1, 0, 0] = ![1, 0, 0] := normalize3_of_unit _ xHat_unit
  simp only [genOp]
  rw [if_neg (by decide), if_true, hn, reflection_xHat]

/-- C3 (the degenerate input reaches a division by zero): for the request
`reflect(space, (0,0,1))` the normal survives `gen_op`'s normalization and
`_reflection`'s canonicalization unchanged, the rotation axis `cross(z_hat, n)` is the
zero vector, and the divisor `sqrt(dot(rot_ax, rot_ax))` the code divides it by is
exactly 0; there is no special case guarding this (NumPy yields `nan` entries, not
`SigmaXY`). -/
theorem c3_degenerate_normal_divides_by_zero :
    canon (normalize3 ![0, 0, 1]) = ![0, 0, 1] ∧
    cross3 zHat (canon (normalize3 ![0, 0, 1])) = 0 ∧
    Real.sqrt (cross3 zHat (canon (normalize3 ![0, 0, 1])) ⬝ᵥ
      cross3 zHat (canon (normalize3 ![0, 0, 1]))) = 0 := by
  have hn : normalize3 ![0, 0, 1] = ![0, 0, 1] := normalize3_of_unit _ zHat_unit
  have hc : canon (normalize3 ![0, 0, 1]) = ![0, 0, 1] := by
    rw [hn, canon_zHat]
  refine ⟨hc, ?_, ?_⟩
  · rw [hc]
    exact cross3_zHat_zHat
  · rw [hc, cross3_zHat_zHat, show (0 : Fin 3 → ℝ) ⬝ᵥ 0 = 0 from by simp]
    exact Real.sqrt_zero

/-- C4: for every nonzero 3-vector axis and every angle with |ang| < 2π, the matrix
returned by `gen_op(ang, ax, 'Cn')` is exactly unitary in the real-arithmetic model:
R · Rᴴ = 1. -/
theorem c4_rotation_unitary (L : ℕ) (ang : ℝ) (ax : Fin 3 → ℝ)
    (_h1 : ax ≠ 0) (_h2 : |ang| < 2 * Real.pi) :
    genOp L ang ax "Cn" = some (rotation L |ang| (normalize3 ax)) ∧
    rotation L |ang| (normalize3 ax) * (rotation L |ang| (normalize3 ax))ᴴ = 1 := by
  constructor
  · simp [genOp]
  · exact rotation_mul_conjTranspose L |ang| (normalize3 ax)

theorem c4_witness :
    rotation 0 |0| (normalize3 ![0, 0, 1]) * (rotation 0 |0| (normalize3 ![0, 0, 1]))ᴴ
      = 1 := by
  refine (c4_rotation_unitary 0 0 ![0, 0, 1] ?_ ?_).2
  · intro h
    simpa using congrFun h 2
  · rw [abs_zero]
    have := Real.pi_pos
    linarith

/-- C5: the constructed generators satisfy the angular-momentum commutation relations
[Lx, Ly] = i·Lz, [Ly, Lz] = i·Lx and [Lz, Lx] = i·Ly, exactly, for every L ≥ 0. -/
theorem c5_commutation_relations (L : ℕ) :
    Lx L * Ly L - Ly L * Lx L = Complex.I • Lz L ∧
    Ly L * Lz L - Lz L * Ly L = Complex.I • Lx L ∧
    Lz L * Lx L - Lx L * Lz L = Complex.I • Ly L :=
  ⟨comm_lx_ly L, comm_ly_lz L, comm_lz_lx L⟩

/-- C6 (restricted to the normals where the code does not divide by zero): for every
unit normal whose cross product with z_hat after canonicalization is nonzero — i.e.
every unit normal not parallel to the z axis, where the code instead produces `nan` —
the reflection operator composed with itself is the identity. -/
theorem c6_reflection_involution (L : ℕ) (n : Fin 3 → ℝ) (_h1 : n ⬝ᵥ n = 1)
    (_h2 : cross3 zHat (canon n) ≠ 0) :
    reflection L n * reflection L n = 1 :=
  reflection_mul_self L n

theorem c6_witness :
    reflection 1 ![1, 0, 0] * reflection 1 ![1, 0, 0] = 1 := by
  refine c6_reflection_involution 1 ![1, 0, 0] xHat_unit ?_
  rw [canon_xHat]
  intro h
  have h1 := congrFun h 1
  simp [cross3, zHat] at h1

/-- C7 counterexample: the non-integer parameter L = 3/2 passes the constructor's
sanity check `assert L >= 0`, refuting the claim that construction fails for every
non-integer L before any computation. -/
theorem c7_counterexample :
    suCheck (3 / 2) = true ∧ ¬ (∃ k : ℤ, (3 / 2 : ℚ) = (k : ℚ)) := by
  constructor
  · rw [suCheck, decide_eq_true_eq]
    norm_num
  · rintro ⟨k, hk⟩
    field_simp at hk
    have h3 : (3 : ℤ) = k * 2 := by exact_mod_cast hk
    omega

/-- C7 amended: the constructor's sanity check passes exactly for L ≥ 0, integer or
not; negative L is rejected by the assertion, while a non-integer L ≥ 0 passes and
`self.L = int(L)` silently coerces it to a different (integer) value.  (For a
non-integer L the construction later crashes in `range`, a TypeError unrelated to the
sanity check.) -/
theorem c7_nonneg_check_and_coercion (q : ℚ) :
    (suCheck q = true ↔ 0 ≤ q) ∧
    (¬ (∃ k : ℤ, q = (k : ℚ)) → ((pyInt q : ℤ) : ℚ) ≠ q) := by
  constructor
  · rw [suCheck, decide_eq_true_eq]
  · intro hni heq
    exact hni ⟨pyInt q, heq.symm⟩

theorem c7_witness :
    (suCheck (5 / 2) = true ↔ 0 ≤ (5 / 2 : ℚ)) ∧ ((pyInt (5 / 2) : ℤ) : ℚ) ≠ (5 / 2 : ℚ) := by
  refine ⟨(c7_nonneg_check_and_coercion (5 / 2)).1,
    (c7_nonneg_check_and_coercion (5 / 2)).2 ?_⟩
  rintro ⟨k, hk⟩
  field_simp at hk
  have h3 : (5 : ℤ) = k * 2 := by exact_mod_cast hk
  omega

/-- C8 counterexample: with the zero axis and angle 1 the assertion of `gen_op`
passes (it never inspects the axis entries) and a rotation operator is returned; the
zero axis is normalized by dividing by `sqrt(0) = 0` (NumPy: `nan`), not detected. -/
theorem c8_counterexample :
    genOpCheck 1 ∧ (genOp 1 1 ![0, 0, 0] "Cn").isSome = true := by
  constructor
  · rw [genOpCheck, abs_one]
    have := Real.pi_gt_three
    linarith
  · simp [genOp]

/-- C8 amended: the assertion of `gen_op` rejects exactly the angles with
|angle| ≥ 2π (the length-3 requirement holds by construction for a 3-vector); the
axis is never checked, so every axis — the zero vector included — produces a returned
operator whenever the angle passes. -/
theorem c8_angle_check_only (ang : ℝ) (h : 2 * Real.pi ≤ |ang|) :
    ¬ genOpCheck ang ∧
    ∀ (L : ℕ) (ang' : ℝ) (ax : Fin 3 → ℝ), (genOp L ang' ax "Cn").isSome = true := by
  constructor
  · rw [genOpCheck]
    exact not_lt.mpr h
  · intro L ang' ax
    simp [genOp]

theorem c8_witness : ¬ genOpCheck 7 ∧ (genOp 0 2 ![1, 2, 2] "Cn").isSome = true := by
  have h7 : 2 * Real.pi ≤ |(7 : ℝ)| := by
    rw [show |(7 : ℝ)| = 7 from abs_of_nonneg (by norm_num)]
    have := Real.pi_lt_d2
    linarith
  exact ⟨(c8_angle_check_only 7 h7).1, (c8_angle_check_only 7 h7).2 0 2 ![1, 2, 2]⟩

/-- C9 counterexample: the tag `'rot'` — the very tag suggested by `gen_op`'s own
docstring — is not a recognized operator type; `gen_op` prints a message and returns
Python `None` instead of failing. -/
theorem c9_counterexample : genOp 1 1 ![0, 0, 1] "rot" = none := by
  simp [genOp]

/-- C9 amended: for every operator-type tag other than `'Cn'`, `'Sigma'` and `'Sn'`,
`gen_op` returns `None` (after printing a warning); it does not raise an error. -/
theorem c9_unrecognized_returns_none (L : ℕ) (ang : ℝ) (ax : Fin 3 → ℝ) (tag : String)
    (h1 : tag ≠ "Cn") (h2 : tag ≠ "Sigma") (h3 : tag ≠ "Sn") :
    genOp L ang ax tag = none := by
  simp [genOp, h1, h2, h3]

theorem c9_witness : genOp 0 0 ![0, 0, 1] "ref" = none :=
  c9_unrecognized_returns_none 0 0 ![0, 0, 1] "ref" (by decide) (by decide) (by decide)

/-- C10: for every L, every entry of Lx and Lz is a real number (zero imaginary part)
and every entry of Ly is purely imaginary (zero real part). -/
theorem c10_entry_structure (L : ℕ) (j k : Fin (2 * L + 1)) :
    (Lx L j k).im = 0 ∧ (Lz L j k).im = 0 ∧ (Ly L j k).re = 0 :=
  ⟨lx_entry_real L j k, lz_entry_real L j k, ly_entry_imaginary L j k⟩

end SU
